import Mathlib

/-!
Shallow embedding of the E-MFS in-memory file system (src/e-mfs.hpp).

The C++ tree of `shared_ptr` nodes with weak parent back-references is
embedded as a pure inductive tree; a node is identified by its location,
the list of child names from the root (the C++ invariant
`parent.children[name] == self` makes node identity and location
interchangeable).  In-place mutation through a resolved node pointer is
embedded as a functional update of the tree at the node's location.
Each distinct `FileSystemException` throw site is mapped to a case of an
error enumeration following the spec's taxonomy.  Mutating member
functions, whose C++ mutations survive a later throw, are embedded in
state-passing style `FSNode -> Option FSErr × FSNode`; read-only ones
return `Except FSErr`.
-/

/-- Error taxonomy; each constructor corresponds to one kind of
`FileSystemException` message thrown in e-mfs.hpp. -/
inductive FSErr where
  | invalidPath
  | notFound
  | notADirectory
  | notAFile
  | isADirectory
  | alreadyExists
  | directoryNotEmpty
  | cyclicMove
  | internalError
deriving DecidableEq, Repr

/-- A file-system node: `FileNode` with its `std::vector<char> content`
(bytes as `Nat`s) or `DirectoryNode` with its name-to-child map,
embedded as an association list in insertion order. -/
inductive FSNode where
  | file : List Nat → FSNode
  | dir : List (String × FSNode) → FSNode
deriving Repr

abbrev Dir := List (String × FSNode)

/-- `children.find(name)` on the association list (keys are unique in
every tree reachable from the empty root, mirroring `unordered_map`). -/
def lookupA : Dir → String → Option FSNode
  | [], _ => none
  | (k, v) :: rest, n => if k = n then some v else lookupA rest n

/-- `children[name] = node`: replace the binding in place if the key is
present, append it otherwise. -/
def insertA : Dir → String → FSNode → Dir
  | [], n, v => [(n, v)]
  | (k, w) :: rest, n, v =>
    if k = n then (k, v) :: rest else (k, w) :: insertA rest n v

/-- `children.erase(name)`: on unique-key lists this is exactly removal
of the binding for `name`. -/
def eraseA (cs : Dir) (n : String) : Dir :=
  cs.filter (fun p => p.1 ≠ n)

/-- Apply `g` to the value bound to `n`, leaving the rest untouched. -/
def updateEntry : Dir → String → (FSNode → FSNode) → Dir
  | [], _, _ => []
  | (k, v) :: rest, n, g =>
    if k = n then (k, g v) :: rest else (k, v) :: updateEntry rest n g

/-- The node at a location (child-name path from the root), if any. -/
def getNode : FSNode → List String → Option FSNode
  | n, [] => some n
  | .file _, _ :: _ => none
  | .dir cs, c :: rest =>
    match lookupA cs c with
    | some child => getNode child rest
    | none => none

/-- Rewrite the children of the directory at location `loc` with `f`;
identity when `loc` does not name a directory. -/
def updateAt : FSNode → List String → (Dir → Dir) → FSNode
  | t, [], f =>
    match t with
    | .dir cs => .dir (f cs)
    | t => t
  | t, c :: rest, f =>
    match t with
    | .dir cs => .dir (updateEntry cs c (fun v => updateAt v rest f))
    | t => t

/-- Insert (or overwrite) child `n` of the directory at `loc`. -/
def insertAt (t : FSNode) (loc : List String) (n : String) (v : FSNode) : FSNode :=
  updateAt t loc (fun cs => insertA cs n v)

/-- Children of the directory at `loc` (callers establish it is one). -/
def childrenAt (t : FSNode) (loc : List String) : Dir :=
  match getNode t loc with
  | some (.dir cs) => cs
  | _ => []

def isDirNode : FSNode → Bool
  | .dir _ => true
  | .file _ => false

-- `FSNode::size()`: file content length, or recursive sum over a
-- directory's children.
mutual
def nodeSize : FSNode → Nat
  | .file c => c.length
  | .dir cs => dirSize cs
def dirSize : Dir → Nat
  | [] => 0
  | e :: rest => nodeSize e.2 + dirSize rest
end

/-! ### Path parsing

`_resolvePath` and `mkdir` parse with `std::getline(ss, component, '/')`
after `ss.ignore()` of one leading `'/'`.  `getline` yields the
`splitOn`-components of the remaining string except that a final empty
component (from a trailing slash) is never produced, because the stream
is exhausted once that slash is consumed. -/

/-- Split a character list at every occurrence of `sep`
(the semantics of `String.splitOn` for a single-character separator). -/
def splitChars (sep : Char) : List Char → List (List Char)
  | [] => [[]]
  | c :: cs =>
    if c = sep then [] :: splitChars sep cs
    else
      match splitChars sep cs with
      | [] => [[c]]
      | h :: t => (c :: h) :: t

/-- Drop one trailing empty component, as `getline` does. -/
def dropLastEmpty (l : List String) : List String :=
  if l.getLast? = some "" then l.dropLast else l

/-- `ss.ignore()` of a single leading slash. -/
def stripSlash (l : List Char) : List Char :=
  if l.head? = some '/' then l.tail else l

/-- The component sequence the `getline` loop of `_resolvePath` /
`mkdir` iterates over for a given path string. -/
def pathComponents (p : String) : List String :=
  if stripSlash p.data = [] then []
  else dropLastEmpty ((splitChars '/' (stripSlash p.data)).map String.mk)

/-! ### Resolution -/

/-- The component loop of `_resolvePath`: `cur` is the location of the
C++ `current` directory.  Empty and `"."` components are skipped; `".."`
moves to the parent, clamped at the root (`dropLast [] = []`); a file is
returned only as the last produced component (`ss.peek() == EOF`),
otherwise "not a directory"; a missing child is "not found". -/
def resolveGo (t : FSNode) : List String → List String → Except FSErr (List String)
  | cur, [] => .ok cur
  | cur, c :: rest =>
    if c = "" ∨ c = "." then resolveGo t cur rest
    else if c = ".." then resolveGo t cur.dropLast rest
    else
      match getNode t (cur ++ [c]) with
      | none => .error .notFound
      | some (.file _) =>
        if rest = [] then .ok (cur ++ [c]) else .error .notADirectory
      | some (.dir _) => resolveGo t (cur ++ [c]) rest

/-- `FileSystem::_resolvePath`, returning the resolved node's location. -/
def resolveLoc (t : FSNode) (path : String) : Except FSErr (List String) :=
  if path = "" then .error .invalidPath
  else if path = "/" then .ok []
  else resolveGo t [] (pathComponents path)

/-- `path.find_last_of('/')`: split into the part before the last slash
and the part after it; `none` when the path has no slash. -/
def splitLastSlash : List Char → Option (List Char × List Char)
  | [] => none
  | c :: cs =>
    match splitLastSlash cs with
    | some (pre, suf) => some (c :: pre, suf)
    | none => if c = '/' then some ([], cs) else none

/-- `FileSystem::_resolveParentAndName`: lexically split off the final
component, resolve the prefix (`"/"` when the last slash is first), and
require a directory. -/
def resolveParentAndName (t : FSNode) (path : String) :
    Except FSErr (List String × String) :=
  if path = "" ∨ path = "/" then .error .invalidPath
  else
    match splitLastSlash path.data with
    | none => .error .invalidPath
    | some (pre, suf) =>
      if suf = [] then .error .invalidPath
      else
        match resolveLoc t (if pre = [] then "/" else String.mk pre) with
        | .error e => .error e
        | .ok ploc =>
          match getNode t ploc with
          | some (.dir _) => .ok (ploc, String.mk suf)
          | some (.file _) => .error .notADirectory
          | none => .error .notADirectory

/-- The `try`-block of `_resolveDestination`: resolve `destPath`; an
existing directory that lacks a child named `sourceName` is the target,
an existing directory that has one, or an existing file, throws
"already exists". -/
def resolveDestinationTry (t : FSNode) (destPath : String) (sourceName : String) :
    Except FSErr (List String × String) :=
  match resolveLoc t destPath with
  | .error e => .error e
  | .ok dloc =>
    match getNode t dloc with
    | some (.dir cs) =>
      if (lookupA cs sourceName).isSome then .error .alreadyExists
      else .ok (dloc, sourceName)
    | some (.file _) => .error .alreadyExists
    | none => .error .internalError

/-- `FileSystem::_resolveDestination`: the `catch` clause around the
whole `try`-block catches every `FileSystemException` — including the
two "already exists" throws raised inside the block itself — and falls
back to `_resolveParentAndName(dest_path)`. -/
def resolveDestination (t : FSNode) (destPath : String) (sourceName : String) :
    Except FSErr (List String × String) :=
  match resolveDestinationTry t destPath sourceName with
  | .ok r => .ok r
  | .error _ => resolveParentAndName t destPath

/-- The `while (tempParent) { ...; tempParent = tempParent->parent.lock(); }`
walk of `mv`: the visited nodes are the location and all its ancestors
down to the root, i.e. the prefixes in decreasing length. -/
def parentChain (l : List String) : List (List String) :=
  l.reverse.tails.map List.reverse

/-! ### Operations -/

/-- The `getline` loop of `FileSystem::mkdir`: only *empty* components
are skipped ( `.` and `..` receive no special treatment here); a missing
component is created as a directory, an existing directory is entered,
an existing file aborts. -/
def mkdirGo (t : FSNode) (cur : List String) : List String → Option FSErr × FSNode
  | [] => (none, t)
  | c :: rest =>
    if c = "" then mkdirGo t cur rest
    else
      match getNode t (cur ++ [c]) with
      | none => mkdirGo (insertAt t cur c (.dir [])) (cur ++ [c]) rest
      | some (.dir _) => mkdirGo t (cur ++ [c]) rest
      | some (.file _) => (some .notADirectory, t)

/-- `FileSystem::mkdir`. -/
def mkdir (t : FSNode) (path : String) : Option FSErr × FSNode :=
  if path = "/" then (none, t)
  else mkdirGo t [] (pathComponents path)

/-- `FileSystem::touch`. -/
def touch (t : FSNode) (path : String) : Option FSErr × FSNode :=
  match resolveParentAndName t path with
  | .error e => (some e, t)
  | .ok (ploc, name) =>
    match lookupA (childrenAt t ploc) name with
    | some (.dir _) => (some .notAFile, t)
    | some (.file _) => (none, t)
    | none => (none, insertAt t ploc name (.file []))

/-- `FileSystem::writeFile`. -/
def writeFile (t : FSNode) (path : String) (content : List Nat) :
    Option FSErr × FSNode :=
  match resolveParentAndName t path with
  | .error e => (some e, t)
  | .ok (ploc, name) =>
    match lookupA (childrenAt t ploc) name with
    | some (.dir _) => (some .isADirectory, t)
    | _ => (none, insertAt t ploc name (.file content))

/-- Replace the node at a (non-root) location. -/
def setNodeAt (t : FSNode) (loc : List String) (v : FSNode) : FSNode :=
  if loc = [] then v
  else updateAt t loc.dropLast (fun cs => insertA cs (loc.getLastD "") v)

/-- `FileSystem::append`. -/
def append (t : FSNode) (path : String) (content : List Nat) :
    Option FSErr × FSNode :=
  match resolveLoc t path with
  | .error e => (some e, t)
  | .ok loc =>
    match getNode t loc with
    | some (.file c) => (none, setNodeAt t loc (.file (c ++ content)))
    | _ => (some .notAFile, t)

/-- `FileSystem::cat`. -/
def cat (t : FSNode) (path : String) : Except FSErr (List Nat) :=
  match resolveLoc t path with
  | .error e => .error e
  | .ok loc =>
    match getNode t loc with
    | some (.file c) => .ok c
    | _ => .error .notAFile

/-- `FileSystem::rm`. -/
def rm (t : FSNode) (path : String) (recursive : Bool) : Option FSErr × FSNode :=
  if path = "/" then (some .invalidPath, t)
  else
    match resolveParentAndName t path with
    | .error e => (some e, t)
    | .ok (ploc, name) =>
      match lookupA (childrenAt t ploc) name with
      | none => (some .notFound, t)
      | some (.dir ccs) =>
        if !recursive && !ccs.isEmpty then (some .directoryNotEmpty, t)
        else (none, updateAt t ploc (fun cs => eraseA cs name))
      | some (.file _) => (none, updateAt t ploc (fun cs => eraseA cs name))

/-- `FileSystem::mv`.  The cycle check compares `tempParent` with
`sourceNode` by pointer identity, which on the C++ invariant is
location equality. -/
def mv (t : FSNode) (sourcePath destPath : String) : Option FSErr × FSNode :=
  if sourcePath = "/" then (some .invalidPath, t)
  else
    match resolveLoc t sourcePath with
    | .error e => (some e, t)
    | .ok sp =>
      if sp = [] then (some .internalError, t)
      else
        match resolveDestination t destPath (sp.getLastD "") with
        | .error e => (some e, t)
        | .ok (np, newName) =>
          if sp ∈ parentChain np then (some .cyclicMove, t)
          else
            match getNode t sp with
            | none => (some .internalError, t)
            | some srcNode =>
              let t1 := updateAt t sp.dropLast (fun cs => eraseA cs (sp.getLastD ""))
              (none, insertAt t1 np newName srcNode)

/-- The names of the children of the directory at `loc`, in map order. -/
def childNames (t : FSNode) (loc : List String) : List String :=
  (childrenAt t loc).map Prod.fst

/-- `FileSystem::_recursiveCopy`, run on an explicit stack of frames
`(remaining child names, source location, destination location)` so the
call-by-call behaviour of the C++ recursion — child list read at call
entry, child nodes read (through the live, aliased tree) when each child
is processed — is preserved while fuel bounds the number of steps;
`none` models a run that exceeds every fuel, i.e. non-termination. -/
def copySteps : Nat → FSNode → List (List String × List String × List String) → Option FSNode
  | _, t, [] => some t
  | 0, _, _ => none
  | n + 1, t, ([], _, _) :: stack => copySteps n t stack
  | n + 1, t, (name :: rest, src, dst) :: stack =>
    match getNode t (src ++ [name]) with
    | some (.file c) =>
      copySteps n (insertAt t dst name (.file c)) ((rest, src, dst) :: stack)
    | some (.dir _) =>
      let t1 := insertAt t dst name (.dir [])
      copySteps n t1
        ((childNames t1 (src ++ [name]), src ++ [name], dst ++ [name]) ::
          (rest, src, dst) :: stack)
    | none => copySteps n t ((rest, src, dst) :: stack)

/-- `FileSystem::cp`; the outer `none` signals that `_recursiveCopy` ran
out of fuel, i.e. the C++ call does not return. -/
def cp (fuel : Nat) (t : FSNode) (sourcePath destPath : String) :
    Option (Option FSErr × FSNode) :=
  match resolveLoc t sourcePath with
  | .error e => some (some e, t)
  | .ok sp =>
    match resolveDestination t destPath
        (if sp = [] then "/" else sp.getLastD "") with
    | .error e => some (some e, t)
    | .ok (np, newName) =>
      if (lookupA (childrenAt t np) newName).isSome then
        some (some .alreadyExists, t)
      else
        match getNode t sp with
        | none => some (some .internalError, t)
        | some (.file c) => some (none, insertAt t np newName (.file c))
        | some (.dir _) =>
          match copySteps fuel (insertAt t np newName (.dir []))
              [(childNames (insertAt t np newName (.dir [])) sp,
                sp, np ++ [newName])] with
          | none => none
          | some t2 => some (none, t2)

/-- Lexicographic byte-wise comparison, the `std::string operator<=`
ordering `std::sort` sorts by in `ls`. -/
def lexLe : List Char → List Char → Bool
  | [], _ => true
  | _ :: _, [] => false
  | a :: as, b :: bs =>
    if a < b then true else if b < a then false else lexLe as bs

def strLe (a b : String) : Bool := lexLe a.data b.data

/-- Insert into a sorted list, keeping it sorted. -/
def insertSorted (s : String) : List String → List String
  | [] => [s]
  | x :: xs => if strLe s x then s :: x :: xs else x :: insertSorted s xs

/-- A sort producing the ascending reordering `std::sort` produces
(sortedness plus permutation determine the output up to equal keys). -/
def sortStrings : List String → List String
  | [] => []
  | x :: xs => insertSorted x (sortStrings xs)

/-- The entry list `ls` builds: each child name, directories suffixed
with `/`, then sorted. -/
def lsEntries (cs : Dir) : List String :=
  sortStrings (cs.map (fun p => p.1 ++ (if isDirNode p.2 then "/" else "")))

/-- `FileSystem::ls`. -/
def ls (t : FSNode) (path : String) : Except FSErr (List String) :=
  match resolveLoc t path with
  | .error e => .error e
  | .ok loc =>
    match getNode t loc with
    | some (.dir cs) => .ok (lsEntries cs)
    | some (.file _) => .error .notADirectory
    | none => .error .notADirectory

/-- `FileSystem::exists` (`exists` is spelled `existsPath` here): the
`catch (...)` converts every resolution failure into `false`. -/
def existsPath (t : FSNode) (path : String) : Bool :=
  match resolveLoc t path with
  | .ok _ => true
  | .error _ => false

/-- `FileSystem::size`. -/
def sizePath (t : FSNode) (path : String) : Except FSErr Nat :=
  match resolveLoc t path with
  | .error e => .error e
  | .ok loc =>
    match getNode t loc with
    | some n => .ok (nodeSize n)
    | none => .error .internalError

/-! ### Association-list lemmas -/

theorem lookupA_insertA_self (cs : Dir) (n : String) (v : FSNode) :
    lookupA (insertA cs n v) n = some v := by
  induction cs with
  | nil => simp [insertA, lookupA]
  | cons e rest ih =>
    obtain ⟨k, w⟩ := e
    by_cases hk : k = n
    · simp [insertA, lookupA, hk]
    · simp [insertA, lookupA, hk, ih]

theorem lookupA_insertA_ne (cs : Dir) (n m : String) (v : FSNode) (h : m ≠ n) :
    lookupA (insertA cs n v) m = lookupA cs m := by
  induction cs with
  | nil => simp [insertA, lookupA, Ne.symm h]
  | cons e rest ih =>
    obtain ⟨k, w⟩ := e
    by_cases hk : k = n
    · subst hk
      simp [insertA, lookupA, Ne.symm h]
    · by_cases hm : k = m <;> simp [insertA, lookupA, hk, hm, h, Ne.symm h, ih]

theorem lookupA_eraseA_self (cs : Dir) (n : String) :
    lookupA (eraseA cs n) n = none := by
  induction cs with
  | nil => simp [eraseA, lookupA]
  | cons e rest ih =>
    obtain ⟨k, w⟩ := e
    by_cases hk : k = n
    · simpa [eraseA, List.filter, hk] using ih
    · simpa [eraseA, List.filter, lookupA, hk] using ih

theorem lookupA_eraseA_ne (cs : Dir) (n m : String) (h : m ≠ n) :
    lookupA (eraseA cs n) m = lookupA cs m := by
  induction cs with
  | nil => simp [eraseA, lookupA]
  | cons e rest ih =>
    obtain ⟨k, w⟩ := e
    by_cases hk : k = n
    · subst hk
      simp [eraseA, List.filter, lookupA, Ne.symm h]
      simpa [eraseA] using ih
    · by_cases hm : k = m
      · subst hm
        simp [eraseA, List.filter, lookupA, h, Ne.symm h]
      · simp only [eraseA, List.filter] at ih ⊢
        simp only [decide_not] at ih ⊢
        simp [lookupA, hk, hm, ih]

theorem lookupA_updateEntry (cs : Dir) (n m : String) (g : FSNode → FSNode) :
    lookupA (updateEntry cs n g) m =
      if m = n then (lookupA cs n).map g else lookupA cs m := by
  induction cs with
  | nil => by_cases hm : m = n <;> simp [updateEntry, lookupA, hm]
  | cons e rest ih =>
    obtain ⟨k, w⟩ := e
    by_cases hk : k = n
    · subst hk
      by_cases hm : m = k
      · subst hm
        simp [updateEntry, lookupA]
      · simp [updateEntry, lookupA, hm, Ne.symm hm, ih]
    · by_cases hkm : k = m
      · subst hkm
        simp [updateEntry, lookupA, hk, Ne.intro hk]
      · simp [updateEntry, lookupA, hk, hkm, ih]

/-! ### getNode / updateAt lemmas -/

/-- The directory kind of the node at a location (`none`: no node). -/
def getKind (t : FSNode) (loc : List String) : Option Bool :=
  (getNode t loc).map isDirNode

theorem getNode_append (t : FSNode) (l1 l2 : List String) :
    getNode t (l1 ++ l2) = (getNode t l1).bind (fun n => getNode n l2) := by
  induction l1 generalizing t with
  | nil => simp [getNode]
  | cons c rest ih =>
    cases t with
    | file _ => simp [getNode]
    | dir cs =>
      simp only [List.cons_append, getNode]
      cases lookupA cs c with
      | none => simp
      | some child => simpa using ih child

/-- A prefix of a valid location is valid. -/
theorem getNode_of_append (t : FSNode) (l1 l2 : List String) (n : FSNode)
    (h : getNode t (l1 ++ l2) = some n) : ∃ m, getNode t l1 = some m := by
  rw [getNode_append] at h
  cases hg : getNode t l1 with
  | none => rw [hg] at h; simp at h
  | some m => exact ⟨m, rfl⟩

/-- Rewriting the children of the directory at `P` acts on a location
below `P` as the rewrite of the subtree. -/
theorem getNode_updateAt_append (t : FSNode) (P : List String) (f : Dir → Dir)
    (cs : Dir) (h : getNode t P = some (.dir cs)) (loc : List String) :
    getNode (updateAt t P f) (P ++ loc) = getNode (.dir (f cs)) loc := by
  induction P generalizing t with
  | nil =>
    simp only [getNode, Option.some_inj] at h
    subst h
    simp [updateAt]
  | cons q P' ih =>
    cases t with
    | file _ => simp [getNode] at h
    | dir cs0 =>
      simp only [getNode] at h
      cases hl : lookupA cs0 q with
      | none => rw [hl] at h; simp at h
      | some v =>
        rw [hl] at h
        simp only [updateAt, List.cons_append, getNode,
          lookupA_updateEntry, if_pos rfl, hl, Option.map_some']
        exact ih v h

/-- Erasing a child somewhere leaves the kind of the node at any
location either unchanged or gone. -/
theorem getKind_erase (t : FSNode) (P : List String) (nm : String) :
    ∀ loc, getKind t loc = getKind (updateAt t P (fun cs => eraseA cs nm)) loc ∨
      getKind (updateAt t P (fun cs => eraseA cs nm)) loc = none := by
  induction P generalizing t with
  | nil =>
    intro loc
    cases t with
    | file _ => left; rfl
    | dir cs =>
      cases loc with
      | nil => left; rfl
      | cons c rest =>
        by_cases hc : c = nm
        · subst hc
          right
          simp [getKind, updateAt, getNode, lookupA_eraseA_self]
        · left
          simp [getKind, updateAt, getNode, lookupA_eraseA_ne cs nm c hc]
  | cons q P' ih =>
    intro loc
    cases t with
    | file _ => left; rfl
    | dir cs =>
      cases loc with
      | nil => left; rfl
      | cons c rest =>
        by_cases hc : c = q
        · subst hc
          simp only [getKind, updateAt, getNode, lookupA_updateEntry, if_pos rfl]
          cases hl : lookupA cs c with
          | none => left; rfl
          | some v => exact ih v rest
        · left
          simp [getKind, updateAt, getNode, lookupA_updateEntry, hc]

/-- Inserting a file over a slot that held no directory leaves the kind
of the node at any location unchanged wherever a node existed before. -/
theorem getKind_insertFile (t : FSNode) (P : List String) (n : String) (b : List Nat)
    (cs0 : Dir) (h : getNode t P = some (.dir cs0))
    (hnd : lookupA cs0 n = none ∨ ∃ bb, lookupA cs0 n = some (.file bb)) :
    ∀ loc, getKind (insertAt t P n (.file b)) loc = getKind t loc ∨
      getKind t loc = none := by
  induction P generalizing t with
  | nil =>
    intro loc
    simp only [getNode, Option.some_inj] at h
    subst h
    cases loc with
    | nil => left; rfl
    | cons c rest =>
      by_cases hc : c = n
      · subst hc
        rcases hnd with hn | ⟨bb, hn⟩
        · right
          simp [getKind, getNode, hn]
        · cases rest with
          | nil =>
            left
            simp [getKind, insertAt, updateAt, getNode,
              lookupA_insertA_self, hn, isDirNode]
          | cons r rs =>
            left
            simp [getKind, insertAt, updateAt, getNode,
              lookupA_insertA_self, hn]
      · left
        simp [getKind, insertAt, updateAt, getNode, lookupA_insertA_ne _ _ _ _ hc]
  | cons q P' ih =>
    intro loc
    cases t with
    | file _ => simp [getNode] at h
    | dir cs =>
      simp only [getNode] at h
      cases hl : lookupA cs q with
      | none => rw [hl] at h; simp at h
      | some v =>
        rw [hl] at h
        cases loc with
        | nil => left; rfl
        | cons c rest =>
          by_cases hc : c = q
          · subst hc
            simp only [getKind, insertAt, updateAt, getNode,
              lookupA_updateEntry, if_pos rfl, hl, Option.map_some']
            exact ih v h rest
          · left
            simp [getKind, insertAt, updateAt, getNode, lookupA_updateEntry, hc]

/-- Resolution only inspects the kind of nodes along the walk, so a
successful walk survives any tree change that preserves kinds where
nodes existed. -/
theorem resolveGo_stable (t₁ t₂ : FSNode)
    (hk : ∀ loc, getKind t₂ loc = getKind t₁ loc ∨ getKind t₁ loc = none) :
    ∀ xs cur L, resolveGo t₁ cur xs = .ok L → resolveGo t₂ cur xs = .ok L := by
  intro xs
  induction xs with
  | nil => intro cur L h; exact h
  | cons c rest ih =>
    intro cur L h
    by_cases hskip : c = "" ∨ c = "."
    · rw [resolveGo, if_pos hskip] at h ⊢
      exact ih cur L h
    · by_cases hdd : c = ".."
      · rw [resolveGo, if_neg hskip, if_pos hdd] at h ⊢
        exact ih cur.dropLast L h
      · rw [resolveGo, if_neg hskip, if_neg hdd] at h ⊢
        cases hg1 : getNode t₁ (cur ++ [c]) with
        | none => rw [hg1] at h; simp at h
        | some n₁ =>
          rw [hg1] at h
          have hkind := hk (cur ++ [c])
          rcases hkind with hkind | hkind
          · cases hg2 : getNode t₂ (cur ++ [c]) with
            | none =>
              rw [getKind, getKind, hg1, hg2] at hkind
              simp at hkind
            | some n₂ =>
              rw [getKind, getKind, hg1, hg2] at hkind
              simp only [Option.map_some', Option.some_inj] at hkind
              cases n₁ with
              | file c1 =>
                cases n₂ with
                | file c2 => exact h
                | dir cs2 => simp [isDirNode] at hkind
              | dir cs1 =>
                cases n₂ with
                | file c2 => simp [isDirNode] at hkind
                | dir cs2 => exact ih (cur ++ [c]) L h
          · rw [getKind, hg1] at hkind
            simp at hkind

/-- A successful walk from a valid location ends at a valid location. -/
theorem getNode_of_resolveGo (t : FSNode) :
    ∀ xs cur L, resolveGo t cur xs = .ok L → (∃ m, getNode t cur = some m) →
      ∃ m, getNode t L = some m := by
  intro xs
  induction xs with
  | nil =>
    intro cur L h hcur
    simp only [resolveGo, Except.ok.injEq] at h
    exact h ▸ hcur
  | cons c rest ih =>
    intro cur L h hcur
    by_cases hskip : c = "" ∨ c = "."
    · rw [resolveGo, if_pos hskip] at h
      exact ih cur L h hcur
    · by_cases hdd : c = ".."
      · rw [resolveGo, if_neg hskip, if_pos hdd] at h
        refine ih cur.dropLast L h ?_
        by_cases hc : cur = []
        · subst hc; exact ⟨t, by simp [getNode]⟩
        · obtain ⟨m, hm⟩ := hcur
          have hsplit : cur.dropLast ++ [cur.getLast hc] = cur :=
            List.dropLast_append_getLast hc
          rw [← hsplit] at hm
          exact getNode_of_append t _ _ m hm
      · rw [resolveGo, if_neg hskip, if_neg hdd] at h
        cases hg : getNode t (cur ++ [c]) with
        | none => rw [hg] at h; simp at h
        | some n =>
          rw [hg] at h
          cases n with
          | file c1 =>
            by_cases hr : rest = []
            · rw [if_pos hr] at h
              simp only [Except.ok.injEq] at h
              exact ⟨.file c1, h ▸ hg⟩
            · rw [if_neg hr] at h; simp at h
          | dir cs1 => exact ih (cur ++ [c]) L h ⟨.dir cs1, hg⟩

/-- After erasing child `nm` of the directory at `P`, no location below
the erased child holds a node. -/
theorem getNode_erase_below (t : FSNode) (P : List String) (nm : String)
    (cs : Dir) (h : getNode t P = some (.dir cs)) (rest : List String) :
    getNode (updateAt t P (fun cs => eraseA cs nm)) (P ++ nm :: rest) = none := by
  rw [getNode_updateAt_append t P _ cs h (nm :: rest)]
  simp [getNode, lookupA_eraseA_self]

/-! ### Path-splitting lemmas -/

theorem splitChars_ne_nil (sep : Char) (l : List Char) : splitChars sep l ≠ [] := by
  cases l with
  | nil => simp [splitChars]
  | cons c cs =>
    by_cases hc : c = sep
    · simp [splitChars, hc]
    · simp only [splitChars, if_neg hc]
      cases splitChars sep cs <;> simp

theorem splitChars_no_sep (sep : Char) (l : List Char) (h : sep ∉ l) :
    splitChars sep l = [l] := by
  induction l with
  | nil => rfl
  | cons c cs ih =>
    have hc : ¬c = sep := fun hh => h (hh ▸ List.mem_cons_self c cs)
    have hcs : sep ∉ cs := fun hh => h (List.mem_cons_of_mem c hh)
    simp only [splitChars, if_neg hc, ih hcs]

theorem splitChars_append (sep : Char) (xs ys : List Char) :
    splitChars sep (xs ++ sep :: ys) = splitChars sep xs ++ splitChars sep ys := by
  induction xs with
  | nil => simp [splitChars]
  | cons c cs ih =>
    by_cases hc : c = sep
    · simp [splitChars, hc, ih]
    · simp only [List.cons_append, splitChars, if_neg hc, List.append_eq]
      rw [ih]
      cases hsc : splitChars sep cs with
      | nil => exact absurd hsc (splitChars_ne_nil sep cs)
      | cons h t => simp

theorem splitLastSlash_none (l : List Char) (h : splitLastSlash l = none) :
    '/' ∉ l := by
  induction l with
  | nil => simp
  | cons c cs ih =>
    simp only [splitLastSlash] at h
    cases hs : splitLastSlash cs with
    | some pr => rw [hs] at h; simp at h
    | none =>
      rw [hs] at h
      by_cases hc : c = '/'
      · rw [if_pos hc] at h; simp at h
      · simp only [List.mem_cons, not_or]
        exact ⟨fun hh => hc hh.symm, ih hs⟩

theorem splitLastSlash_eq (l : List Char) (pre suf : List Char)
    (h : splitLastSlash l = some (pre, suf)) :
    l = pre ++ '/' :: suf ∧ '/' ∉ suf := by
  induction l generalizing pre suf with
  | nil => simp [splitLastSlash] at h
  | cons c cs ih =>
    simp only [splitLastSlash] at h
    cases hs : splitLastSlash cs with
    | some pr =>
      obtain ⟨p0, s0⟩ := pr
      rw [hs] at h
      simp only [Option.some_inj, Prod.mk.injEq] at h
      obtain ⟨h1, h2⟩ := h
      obtain ⟨he, hn⟩ := ih p0 s0 hs
      subst h2
      rw [← h1, he]
      exact ⟨rfl, hn⟩
    | none =>
      rw [hs] at h
      by_cases hc : c = '/'
      · rw [if_pos hc] at h
        simp only [Option.some_inj, Prod.mk.injEq] at h
        obtain ⟨h1, h2⟩ := h
        subst hc h2
        rw [← h1]
        exact ⟨rfl, splitLastSlash_none cs hs⟩
      · rw [if_neg hc] at h; simp at h

theorem dropLastEmpty_concat_ne (xs : List String) (y : String) (hy : y ≠ "") :
    dropLastEmpty (xs ++ [y]) = xs ++ [y] := by
  simp [dropLastEmpty, List.getLast?_concat, hy]

theorem dropLastEmpty_cases (l : List String) :
    l = dropLastEmpty l ∨ l = dropLastEmpty l ++ [""] := by
  by_cases h : l.getLast? = some ""
  · right
    rw [dropLastEmpty, if_pos h]
    have hne : l ≠ [] := by
      intro he; rw [he] at h; simp at h
    have := List.dropLast_append_getLast hne
    rw [List.getLast?_eq_getLast l hne] at h
    simp only [Option.some_inj] at h
    rw [h] at this
    exact this.symm
  · left
    rw [dropLastEmpty, if_neg h]

theorem String_mk_eq_empty_iff (l : List Char) : String.mk l = "" ↔ l = [] := by
  constructor
  · intro h
    have := congrArg String.data h
    simpa using this
  · rintro rfl; rfl

/-! ### Resolution composition -/

theorem resolveGo_skip (t : FSNode) (cur rest : List String) (c : String)
    (h : c = "" ∨ c = ".") : resolveGo t cur (c :: rest) = resolveGo t cur rest := by
  rw [resolveGo, if_pos h]

/-- A walk that ends at a directory composes with a continuation of the
component list. -/
theorem resolveGo_append_dir (t : FSNode) (xs : List String) :
    ∀ cur L ys cs, getNode t L = some (.dir cs) → resolveGo t cur xs = .ok L →
      resolveGo t cur (xs ++ ys) = resolveGo t L ys := by
  induction xs with
  | nil =>
    intro cur L ys cs hL h
    simp only [resolveGo, Except.ok.injEq] at h
    rw [List.nil_append, h]
  | cons c rest ih =>
    intro cur L ys cs hL h
    by_cases hskip : c = "" ∨ c = "."
    · rw [resolveGo, if_pos hskip] at h
      rw [List.cons_append, resolveGo, if_pos hskip]
      exact ih cur L ys cs hL h
    · by_cases hdd : c = ".."
      · rw [resolveGo, if_neg hskip, if_pos hdd] at h
        rw [List.cons_append, resolveGo, if_neg hskip, if_pos hdd]
        exact ih cur.dropLast L ys cs hL h
      · rw [resolveGo, if_neg hskip, if_neg hdd] at h
        rw [List.cons_append, resolveGo, if_neg hskip, if_neg hdd]
        cases hg : getNode t (cur ++ [c]) with
        | none => rw [hg] at h; simp at h
        | some n =>
          rw [hg] at h
          cases n with
          | file c1 =>
            by_cases hr : rest = []
            · rw [if_pos hr] at h
              simp only [Except.ok.injEq] at h
              rw [h] at hg
              rw [hg] at hL
              simp at hL
            · rw [if_neg hr] at h; simp at h
          | dir cs1 => exact ih (cur ++ [c]) L ys cs hL h

/-- A walk over a component list whose one dropped trailing empty
component is restored still reaches the same directory. -/
theorem resolveGo_dropLastEmpty (t : FSNode) (E : List String) (L : List String)
    (cs : Dir) (hL : getNode t L = some (.dir cs))
    (h : resolveGo t [] (dropLastEmpty E) = .ok L) :
    resolveGo t [] E = .ok L := by
  rcases dropLastEmpty_cases E with hE | hE
  · rw [hE]; exact h
  · rw [hE]
    rw [resolveGo_append_dir t (dropLastEmpty E) [] L [""] cs hL h]
    rw [resolveGo_skip t L [] "" (Or.inl rfl)]
    rfl


theorem stripSlash_slash (l : List Char) : stripSlash ('/' :: l) = l := by
  simp [stripSlash]

theorem stripSlash_append (pre x : List Char) (h : pre ≠ []) :
    stripSlash (pre ++ x) = stripSlash pre ++ x := by
  cases pre with
  | nil => exact absurd rfl h
  | cons c cs =>
    by_cases hc : c = '/'
    · subst hc
      simp [stripSlash]
    · simp [stripSlash, hc]

theorem stripSlash_eq_nil_iff (l : List Char) :
    stripSlash l = [] ↔ l = [] ∨ l = ['/'] := by
  cases l with
  | nil => simp [stripSlash]
  | cons c cs =>
    by_cases hc : c = '/'
    · subst hc; simp [stripSlash]
    · simp [stripSlash, hc]

theorem String_mk_ne_empty (l : List Char) (h : l ≠ []) : String.mk l ≠ "" :=
  fun he => h ((String_mk_eq_empty_iff l).mp he)

theorem dropLastEmpty_single (y : String) (hy : y ≠ "") :
    dropLastEmpty [y] = [y] := by
  simp [dropLastEmpty, hy]

theorem resolveLoc_root (t : FSNode) : resolveLoc t "/" = .ok [] := by
  rw [resolveLoc, if_neg (by decide), if_pos rfl]

theorem resolveGo_split_core (t : FSNode) (X : List String) (L : List String)
    (cs : Dir) (hd : getNode t L = some (.dir cs)) (n : String)
    (h : resolveGo t [] (dropLastEmpty X) = .ok L) :
    resolveGo t [] (X ++ [n]) = resolveGo t L [n] :=
  resolveGo_append_dir t X [] L [n] cs hd (resolveGo_dropLastEmpty t X L cs hd h)

/-- The central decomposition: when `_resolveParentAndName`'s lexical
split succeeds and its parent prefix resolves to a directory `L`,
resolving the whole path is resolving the single final component from
`L`.  (Holds in any tree, so it can be applied after a mutation.) -/
theorem resolveLoc_split (t : FSNode) (p : String) (pre suf : List Char)
    (L : List String) (cs : Dir)
    (hsp : splitLastSlash p.data = some (pre, suf)) (hsuf : suf ≠ [])
    (hpl : resolveLoc t (if pre = [] then "/" else String.mk pre) = .ok L)
    (hd : getNode t L = some (.dir cs)) :
    resolveLoc t p = resolveGo t L [String.mk suf] := by
  obtain ⟨hdata, hnosl⟩ := splitLastSlash_eq p.data pre suf hsp
  have hmk : String.mk suf ≠ "" := String_mk_ne_empty suf hsuf
  have hpne : p ≠ "" := by
    intro he
    have hpd : p.data = [] := by subst he; rfl
    rw [hdata] at hpd
    cases pre <;> simp at hpd
  have hproot : p ≠ "/" := by
    intro he
    have hpd : p.data = ['/'] := by subst he; rfl
    rw [hdata] at hpd
    have hlen := congrArg List.length hpd
    simp [List.length_append] at hlen
    exact hsuf (List.length_eq_zero.mp (by omega))
  rw [resolveLoc, if_neg hpne, if_neg hproot]
  by_cases hpre : pre = []
  · subst hpre
    rw [if_pos rfl, resolveLoc_root t] at hpl
    have hL : L = [] := by
      simp only [Except.ok.injEq] at hpl
      exact hpl.symm
    subst hL
    rw [List.nil_append] at hdata
    rw [pathComponents, hdata, stripSlash_slash, if_neg hsuf,
      splitChars_no_sep '/' suf hnosl]
    simp only [List.map]
    rw [dropLastEmpty_single (String.mk suf) hmk]
  · rw [if_neg hpre] at hpl
    have hstr : stripSlash p.data = stripSlash pre ++ '/' :: suf := by
      rw [hdata, stripSlash_append pre ('/' :: suf) hpre]
    have hcomps : pathComponents p =
        ((splitChars '/' (stripSlash pre)).map String.mk) ++ [String.mk suf] := by
      rw [pathComponents, hstr, if_neg (by simp),
        splitChars_append '/' (stripSlash pre) suf,
        splitChars_no_sep '/' suf hnosl, List.map_append]
      simp only [List.map]
      rw [dropLastEmpty_concat_ne _ (String.mk suf) hmk]
    rw [hcomps]
    by_cases hps : pre = ['/']
    · subst hps
      have hmkp : String.mk ['/'] = "/" := rfl
      rw [hmkp, resolveLoc_root t] at hpl
      have hL : L = [] := by
        simp only [Except.ok.injEq] at hpl
        exact hpl.symm
      subst hL
      rw [show stripSlash ['/'] = ([] : List Char) from rfl,
        show splitChars '/' ([] : List Char) = [[]] from rfl]
      simp only [List.map, List.singleton_append]
      rw [show String.mk ([] : List Char) = "" from rfl]
      rw [resolveGo_skip t [] [String.mk suf] "" (Or.inl rfl)]
    · have hmkne : String.mk pre ≠ "" := String_mk_ne_empty pre hpre
      have hmkroot : String.mk pre ≠ "/" := by
        intro he
        have hde := congrArg String.data he
        simp only [show ("/" : String).data = ['/'] from rfl] at hde
        exact hps hde
      rw [resolveLoc, if_neg hmkne, if_neg hmkroot] at hpl
      have hssne : stripSlash pre ≠ [] := by
        intro hss
        rcases (stripSlash_eq_nil_iff pre).mp hss with h | h
        · exact hpre h
        · exact hps h
      rw [pathComponents, show (String.mk pre).data = pre from rfl,
        if_neg hssne] at hpl
      exact resolveGo_split_core t _ L cs hd (String.mk suf) hpl

/-- Inversion of a successful `_resolveParentAndName`. -/
theorem resolveParentAndName_inv (t : FSNode) (p : String) (L : List String)
    (n : String) (h : resolveParentAndName t p = .ok (L, n)) :
    ∃ pre suf, splitLastSlash p.data = some (pre, suf) ∧ suf ≠ [] ∧
      n = String.mk suf ∧
      resolveLoc t (if pre = [] then "/" else String.mk pre) = .ok L ∧
      ∃ cs, getNode t L = some (.dir cs) := by
  rw [resolveParentAndName] at h
  split at h
  · simp at h
  · split at h
    · simp at h
    · rename_i hnr pre suf hsp
      split at h
      · simp at h
      · rename_i hs
        split at h
        · simp at h
        · rename_i ploc hr
          split at h
          · rename_i cs hg
            simp only [Except.ok.injEq, Prod.mk.injEq] at h
            obtain ⟨h1, h2⟩ := h
            subst h1
            exact ⟨pre, suf, hsp, hs, h2.symm, hr, cs, hg⟩
          · simp at h
          · simp at h

/-- Kind-preserving changes also preserve whole-path resolution. -/
theorem resolveLoc_stable (t₁ t₂ : FSNode)
    (hk : ∀ loc, getKind t₂ loc = getKind t₁ loc ∨ getKind t₁ loc = none)
    (p : String) (L : List String) (h : resolveLoc t₁ p = .ok L) :
    resolveLoc t₂ p = .ok L := by
  by_cases h0 : p = ""
  · rw [resolveLoc, if_pos h0] at h; simp at h
  · by_cases h1 : p = "/"
    · rw [resolveLoc, if_neg h0, if_pos h1] at h ⊢; exact h
    · rw [resolveLoc, if_neg h0, if_neg h1] at h ⊢
      exact resolveGo_stable t₁ t₂ hk (pathComponents p) [] L h

/-- C6 counterexample: the claim quantifies over every path whose parent
resolves to a directory without a directory child of that name, but for
`p = "/d/.."` the lexical final component `".."` is created as a child
named `".."` while `cat` resolves `".."` by ascending, so the round trip
breaks: `writeFile` succeeds yet `cat` does not return the bytes. -/
theorem writeFile_dotdot_breaks_roundtrip :
    (writeFile (.dir [("d", .dir [])]) "/d/.." [222, 173, 190, 239]).1 = none ∧
    cat (writeFile (.dir [("d", .dir [])]) "/d/.." [222, 173, 190, 239]).2 "/d/.." =
      .error .notAFile := by
  constructor <;> rfl

/-- C6 (amended): for every path whose lexical final component is
neither `"."` nor `".."`, if the parent resolves to a directory that
does not hold a directory child of that name, `writeFile` succeeds
(creating or overwriting the file) and `cat` of the same path returns
exactly the written bytes; a directory child of that name makes
`writeFile` fail with `IsADirectory`. -/
theorem writeFile_cat_roundtrip_amended :
    (∀ (t : FSNode) (p : String) (b : List Nat) (L : List String) (n : String),
      resolveParentAndName t p = .ok (L, n) →
      n ≠ "." → n ≠ ".." →
      (lookupA (childrenAt t L) n = none ∨
        ∃ c, lookupA (childrenAt t L) n = some (.file c)) →
      writeFile t p b = (none, insertAt t L n (.file b)) ∧
      cat (insertAt t L n (.file b)) p = .ok b) ∧
    (∀ (t : FSNode) (p : String) (b : List Nat) (L : List String) (n : String)
      (dcs : Dir),
      resolveParentAndName t p = .ok (L, n) →
      lookupA (childrenAt t L) n = some (.dir dcs) →
      writeFile t p b = (some .isADirectory, t)) := by
  constructor
  · intro t p b L n hrpn hd1 hd2 hnd
    obtain ⟨pre, suf, hsp, hs, hn, hr, cs, hg⟩ := resolveParentAndName_inv t p L n hrpn
    subst hn
    have hcs : childrenAt t L = cs := by simp [childrenAt, hg]
    rw [hcs] at hnd
    have hw : writeFile t p b = (none, insertAt t L (String.mk suf) (.file b)) := by
      rcases hnd with hlk | ⟨c, hlk⟩ <;>
        simp only [writeFile, hrpn, hcs, hlk]
    refine ⟨hw, ?_⟩
    have hkind := getKind_insertFile t L (String.mk suf) b cs hg hnd
    have hpl' : resolveLoc (insertAt t L (String.mk suf) (.file b))
        (if pre = [] then "/" else String.mk pre) = .ok L :=
      resolveLoc_stable t _ hkind _ L hr
    have hg' : getNode (insertAt t L (String.mk suf) (.file b)) L =
        some (.dir (insertA cs (String.mk suf) (.file b))) := by
      have := getNode_updateAt_append t L
        (fun cs => insertA cs (String.mk suf) (.file b)) cs hg []
      rw [List.append_nil] at this
      exact this
    have hsplit := resolveLoc_split (insertAt t L (String.mk suf) (.file b)) p
      pre suf L (insertA cs (String.mk suf) (.file b)) hsp hs hpl' hg'
    have hnode : getNode (insertAt t L (String.mk suf) (.file b))
        (L ++ [String.mk suf]) = some (.file b) := by
      calc getNode (insertAt t L (String.mk suf) (.file b)) (L ++ [String.mk suf])
          = getNode (.dir (insertA cs (String.mk suf) (.file b))) [String.mk suf] :=
            getNode_updateAt_append t L
              (fun cs => insertA cs (String.mk suf) (.file b)) cs hg [String.mk suf]
        _ = some (.file b) := by simp [getNode, lookupA_insertA_self]
    have hne : ¬(String.mk suf = "" ∨ String.mk suf = ".") := by
      rintro (h1 | h1)
      · exact String_mk_ne_empty suf hs h1
      · exact hd1 h1
    have hone : resolveGo (insertAt t L (String.mk suf) (.file b)) L
        [String.mk suf] = .ok (L ++ [String.mk suf]) := by
      rw [resolveGo, if_neg hne, if_neg hd2]
      simp [hnode]
    simp only [cat, hsplit, hone, hnode]
  · intro t p b L n dcs hrpn hlk
    simp only [writeFile, hrpn, hlk]

/-- C6 witness: the amended round trip at a concrete binary payload. -/
theorem writeFile_cat_roundtrip_amended_witness :
    writeFile (.dir []) "/f" [222, 173, 190, 239] =
      (none, insertAt (.dir []) [] "f" (.file [222, 173, 190, 239])) ∧
    cat (insertAt (.dir []) [] "f" (.file [222, 173, 190, 239])) "/f" =
      .ok [222, 173, 190, 239] :=
  writeFile_cat_roundtrip_amended.1 (.dir []) "/f" [222, 173, 190, 239] [] "f"
    rfl (by decide) (by decide) (Or.inl rfl)

/-- C2 counterexample: `mkdir` gives `"."` no special treatment, so
`mkdir("/.")` on a fresh tree creates a directory whose name is `"."`,
refuting "no operation ever creates a node whose name is `.` or `..`". -/
theorem mkdir_creates_dot_named_directory :
    getNode (mkdir (.dir []) "/.").2 ["."] = some (.dir []) ∧
    (mkdir (.dir []) "/.").1 = none :=
  ⟨rfl, rfl⟩

/-- C2 (amended): the `_resolvePath` walk used by resolve / append /
cat / rm-parents / cp and mv sources / ls / exists / size ignores `"."`
and ascends on `".."`, clamped at the root; but `mkdir` treats `"."`
and `".."` as ordinary names (creating a directory so named), and the
lexical final component of `_resolveParentAndName`-based operations is
likewise taken literally, so `touch("/a/..")` creates a file named
`".."`. -/
theorem dot_dotdot_resolution_amended :
    (∀ (t : FSNode) (cur rest : List String),
      resolveGo t cur ("." :: rest) = resolveGo t cur rest) ∧
    (∀ (t : FSNode) (cur rest : List String),
      resolveGo t cur (".." :: rest) = resolveGo t cur.dropLast rest) ∧
    (∀ (t : FSNode) (rest : List String),
      resolveGo t [] (".." :: rest) = resolveGo t [] rest) ∧
    (mkdir (.dir []) "/." = (none, .dir [(".", .dir [])])) ∧
    (touch (.dir [("a", .dir [])]) "/a/.." =
      (none, .dir [("a", .dir [("..", .file [])])])) := by
  refine ⟨?_, ?_, ?_, rfl, rfl⟩
  · intro t cur rest
    exact resolveGo_skip t cur rest "." (Or.inr rfl)
  · intro t cur rest
    rw [resolveGo, if_neg (by decide), if_pos rfl]
  · intro t rest
    rw [resolveGo, if_neg (by decide), if_pos rfl]
    rfl

/-- C1 evidence: on a tree with file `/x` and directory `/d` holding a
child `x`, the "already exists" throw inside `_resolveDestination`'s
`try` block is caught by its own `catch`, which falls back to
`(root, "d")`; `mv` then replaces the whole directory `/d` by the moved
file, succeeding where the spec requires an `AlreadyExists` failure. -/
theorem mv_overwrites_destination_directory :
    resolveDestinationTry (.dir [("x", .file [1]), ("d", .dir [("x", .file [2])])])
      "/d" "x" = .error .alreadyExists ∧
    resolveDestination (.dir [("x", .file [1]), ("d", .dir [("x", .file [2])])])
      "/d" "x" = .ok ([], "d") ∧
    mv (.dir [("x", .file [1]), ("d", .dir [("x", .file [2])])]) "/x" "/d" =
      (none, .dir [("d", .file [1])]) :=
  ⟨rfl, rfl, rfl⟩

/-- C9 counterexample: `exists` is not the only place an internal error
is silently suppressed: `_resolveDestination` raises "already exists"
internally and `mv` nevertheless succeeds. -/
theorem mv_suppresses_internal_error :
    resolveDestinationTry (.dir [("x", .file [1]), ("d", .dir [("x", .file [2])])])
      "/d" "x" = .error .alreadyExists ∧
    (mv (.dir [("x", .file [1]), ("d", .dir [("x", .file [2])])]) "/x" "/d").1 =
      none :=
  ⟨rfl, rfl⟩

/-- C9 (amended): `exists` never fails and returns `true` exactly when
resolution succeeds, converting every resolution failure into `false`;
however it is not the only suppression point: `_resolveDestination`
(used by `cp` and `mv`) likewise catches internal failures of its
`try` block and proceeds. -/
theorem exists_never_fails_amended :
    (∀ (t : FSNode) (p : String),
      existsPath t p = true ↔ ∃ L, resolveLoc t p = .ok L) ∧
    (∀ (t : FSNode) (p : String),
      existsPath t p = false ↔ ∃ e, resolveLoc t p = .error e) ∧
    (resolveDestination (.dir [("x", .file [1]), ("d", .dir [("x", .file [2])])])
      "/d" "x" = .ok ([], "d")) := by
  refine ⟨?_, ?_, rfl⟩
  · intro t p
    cases h : resolveLoc t p <;> simp [existsPath, h]
  · intro t p
    cases h : resolveLoc t p <;> simp [existsPath, h]

/-- The ancestor walk of `mv` visits exactly the prefixes of the
starting location. -/
theorem mem_parentChain (sp np : List String) :
    sp ∈ parentChain np ↔ sp <+: np := by
  simp only [parentChain, List.mem_map, List.mem_tails]
  constructor
  · rintro ⟨r, hr, rfl⟩
    rw [← List.reverse_suffix, List.reverse_reverse]
    exact hr
  · intro h
    exact ⟨sp.reverse, List.reverse_suffix.mpr h, List.reverse_reverse sp⟩

/-- C4 counterexample: for `src = dest = "/"` on a fresh tree the
destination's resolved target directory is the root, i.e. the node at
`src` itself, yet `mv` fails with `InvalidPath`, not `CyclicMove`. -/
theorem mv_root_cycle_invalid_path :
    resolveLoc (.dir []) "/" = .ok [] ∧
    resolveDestination (.dir []) "/" "/" = .ok ([], "/") ∧
    ([] : List String) <+: [] ∧
    mv (.dir []) "/" "/" = (some .invalidPath, .dir []) ∧
    FSErr.invalidPath ≠ FSErr.cyclicMove :=
  ⟨rfl, rfl, ⟨[], rfl⟩, rfl, by decide⟩

/-- C4 (amended): for a source other than the literal `"/"` that does
not resolve to the root, if the destination's resolved target directory
is the source node or one of its descendants (its location extends the
source's), `mv` fails with `CyclicMove` and returns the tree unchanged;
a root source instead fails with `InvalidPath` (literal `"/"`) or the
internal no-parent error. -/
theorem mv_cyclic_amended (t : FSNode) (src dest : String) (sp np : List String)
    (nm : String) (h1 : src ≠ "/") (h2 : resolveLoc t src = .ok sp)
    (h3 : sp ≠ []) (h4 : resolveDestination t dest (sp.getLastD "") = .ok (np, nm))
    (h5 : sp <+: np) : mv t src dest = (some .cyclicMove, t) := by
  simp only [mv, if_neg h1, h2, if_neg h3, h4,
    if_pos ((mem_parentChain sp np).mpr h5)]

/-- C4 witness: the spec's own `/a`, `/a/b` cycle-guard scenario. -/
theorem mv_cyclic_amended_witness :
    mv (.dir [("a", .dir [("b", .dir [])])]) "/a" "/a/b" =
      (some .cyclicMove, .dir [("a", .dir [("b", .dir [])])]) :=
  mv_cyclic_amended (.dir [("a", .dir [("b", .dir [])])]) "/a" "/a/b"
    ["a"] ["a", "b"] "a" (by decide) rfl (by decide) rfl ⟨["b"], rfl⟩

/-! ### The `ls` ordering -/

theorem lexLe_total (a b : List Char) : lexLe a b = true ∨ lexLe b a = true := by
  induction a generalizing b with
  | nil => left; rfl
  | cons x xs ih =>
    cases b with
    | nil => right; rfl
    | cons y ys =>
      rcases lt_trichotomy x y with h | h | h
      · left; simp [lexLe, h]
      · subst h
        simp only [lexLe, lt_irrefl, if_neg (lt_irrefl x), if_false]
        exact ih ys
      · right; simp [lexLe, h]

theorem lexLe_trans (a b c : List Char) (h1 : lexLe a b = true)
    (h2 : lexLe b c = true) : lexLe a c = true := by
  induction a generalizing b c with
  | nil => rfl
  | cons x xs ih =>
    cases b with
    | nil => simp [lexLe] at h1
    | cons y ys =>
      cases c with
      | nil => simp [lexLe] at h2
      | cons z zs =>
        by_cases hxy : x < y
        · by_cases hyz : y < z
          · simp [lexLe, lt_trans hxy hyz]
          · by_cases hzy : z < y
            · simp [lexLe, hyz, hzy] at h2
            · have : y = z := le_antisymm (le_of_not_lt hzy) (le_of_not_lt hyz)
              subst this
              simp [lexLe, hxy]
        · by_cases hyx : y < x
          · simp [lexLe, hxy, hyx] at h1
          · have hxyeq : x = y := le_antisymm (le_of_not_lt hyx) (le_of_not_lt hxy)
            subst hxyeq
            rw [lexLe, if_neg hxy, if_neg hyx] at h1
            by_cases hyz : x < z
            · simp [lexLe, hyz]
            · by_cases hzy : z < x
              · simp [lexLe, hyz, hzy] at h2
              · have : x = z := le_antisymm (le_of_not_lt hzy) (le_of_not_lt hyz)
                subst this
                rw [lexLe, if_neg hyz, if_neg hyz] at h2 ⊢
                exact ih ys zs h1 h2

theorem lexLe_antisymm (a b : List Char) (h1 : lexLe a b = true)
    (h2 : lexLe b a = true) : a = b := by
  induction a generalizing b with
  | nil =>
    cases b with
    | nil => rfl
    | cons y ys => simp [lexLe] at h2
  | cons x xs ih =>
    cases b with
    | nil => simp [lexLe] at h1
    | cons y ys =>
      by_cases hxy : x < y
      · simp [lexLe, hxy, lt_asymm hxy] at h2
      · by_cases hyx : y < x
        · simp [lexLe, hxy, hyx] at h1
        · have hxyeq : x = y := le_antisymm (le_of_not_lt hyx) (le_of_not_lt hxy)
          subst hxyeq
          rw [lexLe, if_neg hxy, if_neg hxy] at h1 h2
          rw [ih ys h1 h2]

theorem String_data_inj (a b : String) (h : a.data = b.data) : a = b :=
  String.ext h

theorem strLe_total (a b : String) : strLe a b = true ∨ strLe b a = true :=
  lexLe_total a.data b.data

theorem strLe_trans (a b c : String) (h1 : strLe a b = true)
    (h2 : strLe b c = true) : strLe a c = true :=
  lexLe_trans a.data b.data c.data h1 h2

theorem strLe_antisymm (a b : String) (h1 : strLe a b = true)
    (h2 : strLe b a = true) : a = b :=
  String_data_inj a b (lexLe_antisymm a.data b.data h1 h2)

theorem mem_insertSorted (s y : String) (l : List String) :
    y ∈ insertSorted s l ↔ y = s ∨ y ∈ l := by
  induction l with
  | nil => simp [insertSorted]
  | cons x xs ih =>
    by_cases hs : strLe s x = true
    · simp [insertSorted, hs]
    · simp only [insertSorted, if_neg hs, List.mem_cons, ih]
      tauto

theorem insertSorted_perm (s : String) (l : List String) :
    (insertSorted s l).Perm (s :: l) := by
  induction l with
  | nil => exact List.Perm.refl _
  | cons x xs ih =>
    by_cases hs : strLe s x = true
    · rw [insertSorted, if_pos hs]
    · rw [insertSorted, if_neg hs]
      exact (ih.cons x).trans (List.Perm.swap s x xs)

theorem sortStrings_perm (l : List String) : (sortStrings l).Perm l := by
  induction l with
  | nil => exact List.Perm.refl _
  | cons x xs ih =>
    rw [sortStrings]
    exact (insertSorted_perm x (sortStrings xs)).trans (ih.cons x)

theorem pairwise_insertSorted (s : String) (l : List String)
    (h : l.Pairwise (fun a b => strLe a b = true)) :
    (insertSorted s l).Pairwise (fun a b => strLe a b = true) := by
  induction l with
  | nil => simp [insertSorted]
  | cons x xs ih =>
    rw [List.pairwise_cons] at h
    obtain ⟨hx, hxs⟩ := h
    by_cases hs : strLe s x = true
    · rw [insertSorted, if_pos hs, List.pairwise_cons]
      refine ⟨?_, List.pairwise_cons.mpr ⟨hx, hxs⟩⟩
      intro y hy
      rcases List.mem_cons.mp hy with rfl | hy'
      · exact hs
      · exact strLe_trans s x y hs (hx y hy')
    · rw [insertSorted, if_neg hs, List.pairwise_cons]
      refine ⟨?_, ih hxs⟩
      intro y hy
      rcases (mem_insertSorted s y xs).mp hy with rfl | hy'
      · rcases strLe_total y x with h1 | h1
        · exact absurd h1 hs
        · exact h1
      · exact hx y hy'

theorem sortStrings_sorted (l : List String) :
    (sortStrings l).Pairwise (fun a b => strLe a b = true) := by
  induction l with
  | nil => simp [sortStrings]
  | cons x xs ih => exact pairwise_insertSorted x (sortStrings xs) ih

theorem sortStrings_eq_of_perm (l₁ l₂ : List String) (h : l₁.Perm l₂) :
    sortStrings l₁ = sortStrings l₂ := by
  have hp : (sortStrings l₁).Perm (sortStrings l₂) :=
    (sortStrings_perm l₁).trans (h.trans (sortStrings_perm l₂).symm)
  letI : IsAntisymm String (fun a b => strLe a b = true) :=
    ⟨fun a b h1 h2 => strLe_antisymm a b h1 h2⟩
  exact List.eq_of_perm_of_sorted hp (sortStrings_sorted l₁) (sortStrings_sorted l₂)

/-- C3: `ls` output is sorted ascending in the byte-wise lexicographic
order `std::sort` uses on the decorated entries (directory children
suffixed `/`), it is invariant under the (unspecified) iteration order
of the children map, and on a fresh tree after `mkdir("/home")` and
`mkdir("/tmp")` — in either creation order — `ls("/")` is exactly
`["home/", "tmp/"]`. -/
theorem ls_sorted_deterministic :
    (∀ (t : FSNode) (p : String) (l : List String),
      ls t p = .ok l → l.Pairwise (fun a b => strLe a b = true)) ∧
    (∀ cs cs' : Dir, cs.Perm cs' → lsEntries cs = lsEntries cs') ∧
    (ls ((mkdir ((mkdir (.dir []) "/home").2) "/tmp").2) "/" =
      .ok ["home/", "tmp/"]) ∧
    (ls ((mkdir ((mkdir (.dir []) "/tmp").2) "/home").2) "/" =
      .ok ["home/", "tmp/"]) := by
  refine ⟨?_, ?_, rfl, rfl⟩
  · intro t p l h
    rw [ls] at h
    split at h
    · simp at h
    · split at h
      · rename_i cs hg
        simp only [Except.ok.injEq] at h
        rw [← h, lsEntries]
        exact sortStrings_sorted _
      · simp at h
      · simp at h
  · intro cs cs' hp
    rw [lsEntries, lsEntries]
    exact sortStrings_eq_of_perm _ _ (hp.map _)

/-- C3 witness: the sortedness conjunct applied to the concrete
`["home/", "tmp/"]` output. -/
theorem ls_sorted_deterministic_witness :
    (["home/", "tmp/"] : List String).Pairwise (fun a b => strLe a b = true) :=
  ls_sorted_deterministic.1 ((mkdir ((mkdir (.dir []) "/home").2) "/tmp").2)
    "/" ["home/", "tmp/"] rfl

/-! ### Size -/

theorem dirSize_eq_sum (cs : Dir) :
    dirSize cs = (cs.map (fun e => nodeSize e.2)).sum := by
  induction cs with
  | nil => rfl
  | cons e rest ih => simp [dirSize, ih]

/-- C10: `size` of a file path is its content length; `size` of a
directory path is the sum of the children's recursively computed sizes;
concretely a directory holding a 10-byte and a 20-byte file has size 30,
and 10 after the 20-byte file is removed. -/
theorem size_additive :
    (∀ (t : FSNode) (p : String) (L : List String) (c : List Nat),
      resolveLoc t p = .ok L → getNode t L = some (.file c) →
      sizePath t p = .ok c.length) ∧
    (∀ (t : FSNode) (p : String) (L : List String) (cs : Dir),
      resolveLoc t p = .ok L → getNode t L = some (.dir cs) →
      sizePath t p = .ok ((cs.map (fun e => nodeSize e.2)).sum)) ∧
    (sizePath (.dir [("d", .dir [("f", .file (List.replicate 10 7)),
        ("g", .file (List.replicate 20 9))])]) "/d" = .ok 30) ∧
    ((rm (.dir [("d", .dir [("f", .file (List.replicate 10 7)),
        ("g", .file (List.replicate 20 9))])]) "/d/g" true).1 = none ∧
      sizePath (rm (.dir [("d", .dir [("f", .file (List.replicate 10 7)),
        ("g", .file (List.replicate 20 9))])]) "/d/g" true).2 "/d" = .ok 10) := by
  refine ⟨?_, ?_, rfl, rfl, rfl⟩
  · intro t p L c h1 h2
    simp only [sizePath, h1, h2, nodeSize]
  · intro t p L cs h1 h2
    simp only [sizePath, h1, h2, nodeSize, dirSize_eq_sum]

/-- C10 witness: the file conjunct at a concrete three-byte file. -/
theorem size_additive_witness :
    sizePath (.dir [("f", .file [1, 2, 3])]) "/f" = .ok 3 :=
  size_additive.1 (.dir [("f", .file [1, 2, 3])]) "/f" ["f"] [1, 2, 3] rfl rfl

/-! ### Atomicity -/

/-- A failing `mkdir` walk leaves exactly the state some successful
prefix of the component list produces: the directories created on the
way remain, nothing else changes, and the error is the file-in-the-way
one. -/
theorem mkdirGo_fail_prefix (comps : List String) :
    ∀ (t : FSNode) (cur : List String) (e : FSErr) (t' : FSNode),
      mkdirGo t cur comps = (some e, t') →
      e = .notADirectory ∧
      ∃ xs c ys, comps = xs ++ c :: ys ∧ mkdirGo t cur xs = (none, t') := by
  induction comps with
  | nil => intro t cur e t' h; simp [mkdirGo] at h
  | cons c rest ih =>
    intro t cur e t' h
    by_cases hc : c = ""
    · rw [mkdirGo, if_pos hc] at h
      obtain ⟨he, xs, c', ys, hcomps, hpre⟩ := ih t cur e t' h
      refine ⟨he, c :: xs, c', ys, by rw [hcomps]; rfl, ?_⟩
      rw [mkdirGo, if_pos hc]
      exact hpre
    · cases hg : getNode t (cur ++ [c]) with
      | none =>
        simp only [mkdirGo, if_neg hc, hg] at h
        obtain ⟨he, xs, c', ys, hcomps, hpre⟩ := ih _ _ e t' h
        refine ⟨he, c :: xs, c', ys, by rw [hcomps]; rfl, ?_⟩
        simp only [mkdirGo, if_neg hc, hg]
        exact hpre
      | some nd =>
        cases nd with
        | dir dcs =>
          simp only [mkdirGo, if_neg hc, hg] at h
          obtain ⟨he, xs, c', ys, hcomps, hpre⟩ := ih _ _ e t' h
          refine ⟨he, c :: xs, c', ys, by rw [hcomps]; rfl, ?_⟩
          simp only [mkdirGo, if_neg hc, hg]
          exact hpre
        | file fc =>
          simp only [mkdirGo, if_neg hc, hg, Prod.mk.injEq,
            Option.some_inj] at h
          obtain ⟨h1, h2⟩ := h
          exact ⟨h1.symm, [], c, rest, rfl,
            by rw [show mkdirGo t cur [] = (none, t) from rfl, h2]⟩

/-- C5: every mutating operation that can throw does so before any
mutation — a failing `touch` / `writeFile` / `append` / `rm` / `mv`
(and `cp`, at every fuel) returns the tree unchanged; a failing `mkdir`
returns exactly the tree produced by the successfully processed prefix
of its component list (the intermediate directories created en route),
with the file-in-the-way error. -/
theorem mutating_ops_atomic :
    (∀ (t : FSNode) (p : String) (e : FSErr) (t' : FSNode),
      touch t p = (some e, t') → t' = t) ∧
    (∀ (t : FSNode) (p : String) (b : List Nat) (e : FSErr) (t' : FSNode),
      writeFile t p b = (some e, t') → t' = t) ∧
    (∀ (t : FSNode) (p : String) (b : List Nat) (e : FSErr) (t' : FSNode),
      append t p b = (some e, t') → t' = t) ∧
    (∀ (t : FSNode) (p : String) (r : Bool) (e : FSErr) (t' : FSNode),
      rm t p r = (some e, t') → t' = t) ∧
    (∀ (t : FSNode) (src dest : String) (e : FSErr) (t' : FSNode),
      mv t src dest = (some e, t') → t' = t) ∧
    (∀ (fuel : Nat) (t : FSNode) (src dest : String) (e : FSErr) (t' : FSNode),
      cp fuel t src dest = some (some e, t') → t' = t) ∧
    (∀ (t : FSNode) (p : String) (e : FSErr) (t' : FSNode),
      mkdir t p = (some e, t') →
      e = .notADirectory ∧
      ∃ xs c ys, pathComponents p = xs ++ c :: ys ∧
        mkdirGo t [] xs = (none, t')) := by
  refine ⟨?_, ?_, ?_, ?_, ?_, ?_, ?_⟩
  · intro t p e t' h
    rw [touch] at h
    repeat' split at h
    all_goals
      first
        | (simp only [Prod.mk.injEq, Option.some_inj] at h; exact h.2.symm)
        | simp at h
  · intro t p b e t' h
    rw [writeFile] at h
    repeat' split at h
    all_goals
      first
        | (simp only [Prod.mk.injEq, Option.some_inj] at h; exact h.2.symm)
        | simp at h
  · intro t p b e t' h
    rw [append] at h
    repeat' split at h
    all_goals
      first
        | (simp only [Prod.mk.injEq, Option.some_inj] at h; exact h.2.symm)
        | simp at h
  · intro t p r e t' h
    rw [rm] at h
    repeat' split at h
    all_goals
      first
        | (simp only [Prod.mk.injEq, Option.some_inj] at h; exact h.2.symm)
        | simp at h
  · intro t src dest e t' h
    rw [mv] at h
    repeat' split at h
    all_goals
      first
        | (simp only [Prod.mk.injEq, Option.some_inj] at h; exact h.2.symm)
        | simp at h
  · intro fuel t src dest e t' h
    rw [cp] at h
    repeat' split at h
    all_goals
      first
        | (simp only [Option.some_inj, Prod.mk.injEq] at h; exact h.2.symm)
        | simp at h
  · intro t p e t' h
    by_cases hp : p = "/"
    · rw [mkdir, if_pos hp] at h; simp at h
    · rw [mkdir, if_neg hp] at h
      exact mkdirGo_fail_prefix (pathComponents p) t [] e t' h

/-- C5 witness: a failing `touch` on a relative path returns the tree
it was given. -/
theorem mutating_ops_atomic_witness :
    touch (.dir []) "x" = (some .invalidPath, .dir []) ∧
    ((.dir [] : FSNode) = .dir []) :=
  ⟨rfl, mutating_ops_atomic.1 (.dir []) "x" .invalidPath (.dir []) rfl⟩

/-- C7 counterexample: `rm` resolves through `_resolveParentAndName`,
so a relative path that does not resolve fails with `InvalidPath`
("paths must be absolute"), not with `NotFound` as the claim states. -/
theorem rm_relative_path_not_notfound :
    resolveLoc (.dir []) "x" = .error .notFound ∧
    rm (.dir []) "x" false = (some .invalidPath, .dir []) ∧
    FSErr.invalidPath ≠ FSErr.notFound :=
  ⟨rfl, rfl, by decide⟩

/-- C7 (amended): `rm("/")` fails with `InvalidPath`; a path whose
lexical parent/name split fails (no slash, trailing slash, empty)
fails with that split's error, and a failing parent resolution
propagates its own error, rather than always `NotFound`; `NotFound` is
raised exactly when the parent resolves to a directory without a child
of the final name; a non-empty directory child without `recursive`
fails with `DirectoryNotEmpty`; otherwise `rm` succeeds, erases the
child's whole subtree, and — when the final name is not the literal
`"."` or `".."` — `exists` is afterwards `false` for the removed path
and for every path that resolved into the removed subtree. -/
theorem rm_amended :
    (∀ (t : FSNode) (r : Bool), rm t "/" r = (some .invalidPath, t)) ∧
    (∀ (t : FSNode) (p : String) (r : Bool) (e : FSErr),
      p ≠ "/" → resolveParentAndName t p = .error e → rm t p r = (some e, t)) ∧
    (∀ (t : FSNode) (p : String) (r : Bool) (L : List String) (n : String),
      p ≠ "/" → resolveParentAndName t p = .ok (L, n) →
      lookupA (childrenAt t L) n = none → rm t p r = (some .notFound, t)) ∧
    (∀ (t : FSNode) (p : String) (L : List String) (n : String) (ccs : Dir),
      p ≠ "/" → resolveParentAndName t p = .ok (L, n) →
      lookupA (childrenAt t L) n = some (.dir ccs) → ccs ≠ [] →
      rm t p false = (some .directoryNotEmpty, t)) ∧
    (∀ (t : FSNode) (p : String) (r : Bool) (L : List String) (n : String)
      (child : FSNode),
      p ≠ "/" → resolveParentAndName t p = .ok (L, n) →
      lookupA (childrenAt t L) n = some child →
      (∀ ccs, child = .dir ccs → ccs = [] ∨ r = true) →
      rm t p r = (none, updateAt t L (fun cs => eraseA cs n)) ∧
      (n ≠ "." → n ≠ ".." →
        existsPath (updateAt t L (fun cs => eraseA cs n)) p = false ∧
        ∀ (q : String) (Lq : List String), resolveLoc t q = .ok Lq →
          (L ++ [n]) <+: Lq →
          existsPath (updateAt t L (fun cs => eraseA cs n)) q = false)) := by
  refine ⟨?_, ?_, ?_, ?_, ?_⟩
  · intro t r
    rw [rm, if_pos rfl]
  · intro t p r e hp herr
    simp only [rm, if_neg hp, herr]
  · intro t p r L n hp hrpn hlk
    simp only [rm, if_neg hp, hrpn, hlk]
  · intro t p L n ccs hp hrpn hlk hcc
    simp only [rm, if_neg hp, hrpn, hlk]
    rw [if_pos]
    cases ccs with
    | nil => exact absurd rfl hcc
    | cons a as => simp
  · intro t p r L n child hp hrpn hlk hre
    obtain ⟨pre, suf, hsp, hs, hn, hr, cs, hg⟩ := resolveParentAndName_inv t p L n hrpn
    have hcs : childrenAt t L = cs := by simp [childrenAt, hg]
    rw [hcs] at hlk
    have hrm : rm t p r = (none, updateAt t L (fun cs => eraseA cs n)) := by
      cases child with
      | file c => simp only [rm, if_neg hp, hrpn, hcs, hlk]
      | dir ccs =>
        simp only [rm, if_neg hp, hrpn, hcs, hlk]
        rw [if_neg]
        rcases hre ccs rfl with hccs | hrt
        · subst hccs; simp
        · subst hrt; simp
    refine ⟨hrm, ?_⟩
    intro hd1 hd2
    have hk' : ∀ loc, getKind t loc =
        getKind (updateAt t L (fun cs => eraseA cs n)) loc ∨
        getKind (updateAt t L (fun cs => eraseA cs n)) loc = none :=
      getKind_erase t L n
    have hQ : ∀ (q : String) (Lq : List String), resolveLoc t q = .ok Lq →
        (L ++ [n]) <+: Lq →
        existsPath (updateAt t L (fun cs => eraseA cs n)) q = false := by
      intro q Lq hq hpref
      cases hex : resolveLoc (updateAt t L (fun cs => eraseA cs n)) q with
      | error e => simp [existsPath, hex]
      | ok L'' =>
        exfalso
        have hqt : resolveLoc t q = .ok L'' :=
          resolveLoc_stable (updateAt t L (fun cs => eraseA cs n)) t hk' q L'' hex
        rw [hq] at hqt
        simp only [Except.ok.injEq] at hqt
        subst hqt
        obtain ⟨rest, hrest⟩ := hpref
        have hnone : getNode (updateAt t L (fun cs => eraseA cs n)) Lq = none := by
          rw [← hrest, List.append_assoc]
          exact getNode_erase_below t L n cs hg rest
        have hsome : ∃ m,
            getNode (updateAt t L (fun cs => eraseA cs n)) Lq = some m := by
          by_cases h0 : q = ""
          · rw [resolveLoc, if_pos h0] at hex; simp at hex
          · by_cases h1 : q = "/"
            · rw [resolveLoc, if_neg h0, if_pos h1] at hex
              simp only [Except.ok.injEq] at hex
              rw [← hex] at hrest
              have := congrArg List.length hrest
              simp at this
            · rw [resolveLoc, if_neg h0, if_neg h1] at hex
              refine getNode_of_resolveGo _ (pathComponents q) [] Lq hex
                ⟨updateAt t L (fun cs => eraseA cs n), ?_⟩
              simp [getNode]
        obtain ⟨m, hm⟩ := hsome
        rw [hnone] at hm
        exact Option.noConfusion hm
    have hploc : resolveLoc t p = .ok (L ++ [n]) := by
      have hsplit := resolveLoc_split t p pre suf L cs hsp hs hr hg
      rw [hsplit, ← hn]
      have hne : ¬(n = "" ∨ n = ".") := by
        rintro (h1 | h1)
        · exact String_mk_ne_empty suf hs (hn ▸ h1)
        · exact hd1 h1
      rw [resolveGo, if_neg hne, if_neg hd2]
      have hchild : getNode t (L ++ [n]) = some child := by
        rw [getNode_append, hg]
        simp [getNode, hlk]
      cases child with
      | file c => simp [hchild]
      | dir ccs => simp [hchild, resolveGo]
    exact ⟨hQ p (L ++ [n]) hploc ⟨[], List.append_nil _⟩, hQ⟩

/-- C7 witness: removing `/d` recursively from a tree holding `/d/x`,
then checking both `exists(/d)` and the descendant `exists(/d/x)`. -/
theorem rm_amended_witness :
    rm (.dir [("d", .dir [("x", .file [1])])]) "/d" true =
      (none, updateAt (.dir [("d", .dir [("x", .file [1])])]) []
        (fun cs => eraseA cs "d")) ∧
    existsPath (updateAt (.dir [("d", .dir [("x", .file [1])])]) []
      (fun cs => eraseA cs "d")) "/d" = false ∧
    existsPath (updateAt (.dir [("d", .dir [("x", .file [1])])]) []
      (fun cs => eraseA cs "d")) "/d/x" = false := by
  have h := rm_amended.2.2.2.2 (.dir [("d", .dir [("x", .file [1])])]) "/d" true
    [] "d" (.dir [("x", .file [1])]) (by decide) rfl rfl
    (fun ccs hc => Or.inr rfl)
  have h2 := h.2 (by decide) (by decide)
  exact ⟨h.1, h2.1, h2.2 "/d/x" ["d", "x"] rfl ⟨["x"], rfl⟩⟩

/-! ### Non-termination of `_recursiveCopy` on an aliased destination -/

/-- A single-branch chain of directories. -/
def chain : List String → FSNode
  | [] => .dir []
  | c :: cs => .dir [(c, chain cs)]

theorem getNode_chain_take (w : List String) (m : Nat) (h : m ≤ w.length) :
    getNode (chain w) (w.take m) = some (chain (w.drop m)) := by
  induction w generalizing m with
  | nil =>
    have : m = 0 := Nat.le_zero.mp (by simpa using h)
    subst this
    simp [getNode, chain]
  | cons x xs ih =>
    cases m with
    | zero => simp [getNode, chain]
    | succ m' =>
      simp only [List.take_succ_cons, List.drop_succ_cons]
      simp only [chain, getNode, lookupA, if_pos rfl]
      exact ih m' (Nat.succ_le_succ_iff.mp (by simpa using h))

theorem insertAt_chain (w : List String) (c : String) :
    insertAt (chain w) w c (.dir []) = chain (w ++ [c]) := by
  induction w with
  | nil => rfl
  | cons x xs ih =>
    simp only [chain, List.cons_append, insertAt, updateAt, updateEntry,
      eq_self_iff_true, if_true, List.append_eq]
    rw [← ih]
    rfl

/-- The self-similar divergence of `_recursiveCopy` when the copy
target sits inside the copied subtree: whenever the tree is a chain `w`,
the active frame copies the single child `c` of the node at `w.take m`
into the chain's tip (`w.drop m = [c, d]`), every fuel is exhausted —
each step re-extends the chain and re-creates the same shape. -/
theorem copySteps_diverges (fuel : Nat) :
    ∀ (w : List String) (m : Nat) (c d : String)
      (tail : List (List String × List String × List String)),
      w.drop m = [c, d] →
      copySteps fuel (chain w) (([c], w.take m, w) :: tail) = none := by
  induction fuel with
  | zero => intro w m c d tail _; rfl
  | succ n ih =>
    intro w m c d tail hdrop
    have hlen2 : (w.drop m).length = 2 := by rw [hdrop]; rfl
    have hlen : w.length = m + 2 := by
      rw [List.length_drop] at hlen2
      omega
    have htake : w.take (m + 1) = w.take m ++ [c] := by
      rw [List.take_add, hdrop]
      rfl
    have hdm1 : w.drop (m + 1) = [d] := by
      rw [← List.tail_drop, hdrop]
      rfl
    have hgc : getNode (chain w) (w.take m ++ [c]) =
        some (.dir [(d, chain [])]) := by
      rw [← htake, getNode_chain_take w (m + 1) (by omega), hdm1]
      rfl
    have htake' : w.take m ++ [c] = (w ++ [c]).take (m + 1) := by
      rw [List.take_append_of_le_length (by omega), htake]
    have hdrop' : (w ++ [c]).drop (m + 1) = [d, c] := by
      rw [List.drop_append_of_le_length (by omega), hdm1]
      rfl
    have hnames : childNames (chain (w ++ [c])) ((w ++ [c]).take (m + 1)) =
        [d] := by
      rw [childNames, childrenAt,
        getNode_chain_take (w ++ [c]) (m + 1) (by simp [hlen]), hdrop']
      rfl
    simp only [copySteps, hgc, insertAt_chain w c]
    rw [htake', hnames]
    exact ih (w ++ [c]) (m + 1) d c _ hdrop'

/-- C8: `cp` of a directory into its own subtree does not terminate.
With directories `/a` and `/a/b`, `cp("/a", "/a/b")` first inserts the
empty copy into `/a/b`, making the tree the chain `a/b/a`; from then on
`_recursiveCopy` keeps finding one more directory child to copy —
through the live, aliased tree — extending the chain forever, so the
run exhausts every fuel bound. -/
theorem cp_into_own_subtree_diverges (fuel : Nat) :
    cp fuel (.dir [("a", .dir [("b", .dir [])])]) "/a" "/a/b" = none := by
  have hbridge : cp fuel (.dir [("a", .dir [("b", .dir [])])]) "/a" "/a/b" =
      (match copySteps fuel (chain ["a", "b", "a"])
          [(["b"], ["a"], ["a", "b", "a"])] with
        | none => none
        | some t2 => some (none, t2)) := rfl
  have hdiv : copySteps fuel (chain ["a", "b", "a"])
      [(["b"], ["a"], ["a", "b", "a"])] = none :=
    copySteps_diverges fuel ["a", "b", "a"] 1 "b" "a" [] rfl
  rw [hbridge, hdiv]
